import Mathlib

/-!
Shallow embedding of the pi-compress program (src/main.rs).

Modelling conventions:
* a Rust `u8` byte is a `Nat`; theorems that depend on the byte range carry
  the hypothesis `x < 256`;
* a Rust string (`&str` / `String`) is a `List Char`; every string the core
  manipulates (the digit dictionary, hex keys) is ASCII, where Rust's byte
  indices coincide with character indices;
* a Rust `String` result is represented by its byte buffer, with the
  `String::from_utf8` step modelled as an explicit UTF-8 validity check
  (a Rust `String` is exactly a UTF-8-valid byte vector);
* `Result<T, String>` becomes `Except E T` with one error constructor per
  distinct `Err` site (the formatted message text is presentation only).
-/

/-- One lowercase hex digit, as produced by Rust `format!` with the `{:02x}`
spec for each nibble of a `u8`.  Nibbles are always `< 16`; the final
catch-all therefore only ever fires for `15`. -/
def hexDigitChar : Nat → Char
  | 0 => '0' | 1 => '1' | 2 => '2' | 3 => '3' | 4 => '4'
  | 5 => '5' | 6 => '6' | 7 => '7' | 8 => '8' | 9 => '9'
  | 10 => 'a' | 11 => 'b' | 12 => 'c' | 13 => 'd' | 14 => 'e'
  | _ => 'f'

/-- The two-character lowercase hex form of one byte (`format!` `{:02x}`). -/
def byteToHex (b : Nat) : List Char :=
  [hexDigitChar (b / 16), hexDigitChar (b % 16)]

/-- Function `bytes_to_hex_string` from src/main.rs: each byte becomes two lowercase
hex characters, concatenated in order. -/
def bytes_to_hex_string (bytes : List Nat) : List Char :=
  (bytes.map byteToHex).flatten

/-- The value of one hex digit character, as accepted by Rust
`char::to_digit(16)` inside `from_str_radix`: `0`-`9`, `a`-`f`, `A`-`F`. -/
def hexDigitVal (c : Char) : Option Nat :=
  if 48 ≤ c.toNat ∧ c.toNat ≤ 57 then some (c.toNat - 48)
  else if 97 ≤ c.toNat ∧ c.toNat ≤ 102 then some (c.toNat - 87)
  else if 65 ≤ c.toNat ∧ c.toNat ≤ 70 then some (c.toNat - 55)
  else none

/-- Rust `u8::from_str_radix(s, 16)` for the exactly-two-character slices the
program feeds it.  `from_str_radix` accepts an optional leading sign; for an
unsigned target only `+` is a sign (`-` falls through and fails as an invalid
digit), so a pair may be `+d` (value of the single digit `d`) or two hex
digits `hl` (value `16*h + l`, which never overflows `u8`). -/
def u8FromStrRadix16Pair (c0 c1 : Char) : Option Nat :=
  if c0 = '+' then hexDigitVal c1
  else
    match hexDigitVal c0, hexDigitVal c1 with
    | some h, some l => some (16 * h + l)
    | _, _ => none

/-- The two failure kinds of `hex_string_to_bytes`: the odd-length guard and
the per-pair `from_str_radix` failure. -/
inductive HexError where
  | oddLength : HexError
  | invalidDigit : HexError
deriving DecidableEq

/-- The pair loop of `hex_string_to_bytes`: decode consecutive two-character
chunks, aborting on the first chunk `from_str_radix` rejects.  The one-element
case is unreachable behind the even-length guard. -/
def hexPairs : List Char → Except HexError (List Nat)
  | [] => .ok []
  | [_] => .error .invalidDigit
  | c0 :: c1 :: rest =>
    match u8FromStrRadix16Pair c0 c1 with
    | some b => (hexPairs rest).map (fun bs => b :: bs)
    | none => .error .invalidDigit

/-- Function `hex_string_to_bytes` from src/main.rs: reject odd-length input, then
decode each consecutive character pair. -/
def hex_string_to_bytes (hex_str : List Char) : Except HexError (List Nat) :=
  if hex_str.length % 2 ≠ 0 then .error .oddLength else hexPairs hex_str

/-- Rust `str::find` with a string pattern: the index of the leftmost
occurrence of `needle` as a contiguous substring of `hay`. -/
def strFind : List Char → List Char → Option Nat
  | [], needle => if needle.isEmpty then some 0 else none
  | c :: t, needle =>
    if needle.isPrefixOf (c :: t) then some 0
    else (strFind t needle).map (fun i => i + 1)

/-- Function `find_and_verify_match` from src/main.rs: build the hex key, search pi for
its first occurrence, bounds-check, re-decode the matched pi slice, and accept
only if it decodes back to the original bytes. -/
def find_and_verify_match (slice_to_try : List Nat) (pi : List Char) :
    Option (Nat × Nat) :=
  let hex_str_to_find := bytes_to_hex_string slice_to_try
  match strFind pi hex_str_to_find with
  | some index =>
    let hex_len := hex_str_to_find.length
    if index + hex_len ≤ pi.length then
      match hex_string_to_bytes ((pi.drop index).take hex_len) with
      | .ok decoded_bytes =>
        if decoded_bytes = slice_to_try then some (index, hex_len) else none
      | .error _ => none
    else none
  | none => none

/-- The `MatchResult` enum of src/main.rs. -/
inductive MatchResult where
  | Found (index hex_len original_byte_len : Nat)
  | NotFound (data : List Nat)
deriving DecidableEq

/-- The number of input bytes one segment stands for. -/
def segLen : MatchResult → Nat
  | .Found _ _ l => l
  | .NotFound d => d.length

/-- The inner `for len in (1..=remaining).rev()` loop of `compress`: try
`find_and_verify_match` on the prefix of length `n`, `n-1`, ..., `1` of the
remaining input, returning the first (hence longest) verified match together
with its length. -/
def tryLengths (bytes : List Nat) (pi : List Char) : Nat → Option (Nat × Nat × Nat)
  | 0 => none
  | n + 1 =>
    match find_and_verify_match (bytes.take (n + 1)) pi with
    | some (index, hex_len) => some (index, hex_len, n + 1)
    | none => tryLengths bytes pi n

/-- The outer `while current_pos < input_bytes.len()` loop of `compress`,
with an explicit iteration bound.  Every iteration consumes at least one byte,
so `fuel = length of the remaining input` is always enough; lemma
`compressGo_fuel_eq` shows the result does not depend on the bound. -/
def compressGo (pi : List Char) : Nat → List Nat → List MatchResult
  | 0, _ => []
  | _, [] => []
  | fuel + 1, b :: rest =>
    match tryLengths (b :: rest) pi (rest.length + 1) with
    | some (index, hex_len, len) =>
      .Found index hex_len len :: compressGo pi fuel ((b :: rest).drop len)
    | none => .NotFound [b] :: compressGo pi fuel rest

/-- Function `compress` from src/main.rs over the input's byte sequence
(`text.as_bytes()`). -/
def compress (input_bytes : List Nat) (pi : List Char) : List MatchResult :=
  compressGo pi input_bytes.length input_bytes

/-- The failure kinds of `decompress`: the bounds check, the pi-slice hex
conversion, the decoded-length check, and the final `String::from_utf8`. -/
inductive DecompressError where
  | outOfBounds : DecompressError
  | conversion (e : HexError) : DecompressError
  | lengthMismatch : DecompressError
  | notUtf8 : DecompressError
deriving DecidableEq

/-- The segment loop of `decompress`: expand each `Found` segment from pi
(bounds check, hex decode, decoded-length check) and splice `NotFound` bytes
through unchanged, accumulating the reconstructed byte buffer. -/
def decompressBytes : List MatchResult → List Char → Except DecompressError (List Nat)
  | [], _ => .ok []
  | .Found index hex_len original_byte_len :: rest, pi =>
    if index + hex_len > pi.length then .error .outOfBounds
    else
      match hex_string_to_bytes ((pi.drop index).take hex_len) with
      | .ok bytes =>
        if bytes.length = original_byte_len then
          (decompressBytes rest pi).map (fun out => bytes ++ out)
        else .error .lengthMismatch
      | .error e => .error (.conversion e)
  | .NotFound data :: rest, pi =>
    (decompressBytes rest pi).map (fun out => data ++ out)

/-- A UTF-8 continuation byte. -/
def utf8Cont (b : Nat) : Bool := 128 ≤ b && b ≤ 191

/-- The UTF-8 validity check performed by Rust `String::from_utf8`
(core's `run_utf8_validation`): ASCII, and 2/3/4-byte sequences with the
standard overlong, surrogate and upper-bound restrictions. -/
def utf8Valid : List Nat → Bool
  | [] => true
  | b :: rest =>
    if b < 128 then utf8Valid rest
    else if b < 194 then false
    else if b < 224 then
      match rest with
      | b1 :: rest2 => utf8Cont b1 && utf8Valid rest2
      | [] => false
    else if b < 240 then
      match rest with
      | b1 :: b2 :: rest3 =>
        (if b = 224 then (160 ≤ b1 && b1 ≤ 191)
         else if b = 237 then (128 ≤ b1 && b1 ≤ 159)
         else utf8Cont b1) && utf8Cont b2 && utf8Valid rest3
      | _ => false
    else if b < 245 then
      match rest with
      | b1 :: b2 :: b3 :: rest4 =>
        (if b = 240 then (144 ≤ b1 && b1 ≤ 191)
         else if b = 244 then (128 ≤ b1 && b1 ≤ 143)
         else utf8Cont b1) && utf8Cont b2 && utf8Cont b3 && utf8Valid rest4
      | _ => false
    else false

/-- Function `decompress` from src/main.rs: rebuild the byte buffer, then convert it
to a `String` (modelled as the buffer itself guarded by UTF-8 validity). -/
def decompress (results : List MatchResult) (pi : List Char) :
    Except DecompressError (List Nat) :=
  match decompressBytes results pi with
  | .ok result_bytes =>
    if utf8Valid result_bytes then .ok result_bytes else .error .notUtf8
  | .error e => .error e

/-- Consecutive character pairs of a string, used to state what
`hex_string_to_bytes` computes on even-length input. -/
def pairChunks : List Char → List (Char × Char)
  | c0 :: c1 :: rest => (c0, c1) :: pairChunks rest
  | _ => []

/-- A small concrete digit dictionary (a prefix of pi) for witnesses. -/
def piW : List Char := ['3', '1', '4', '1', '5', '9']

/-! ## Hex codec lemmas -/

theorem bytes_to_hex_cons (b : Nat) (t : List Nat) :
    bytes_to_hex_string (b :: t) = byteToHex b ++ bytes_to_hex_string t := by
  simp [bytes_to_hex_string]

theorem bytes_to_hex_length (bs : List Nat) :
    (bytes_to_hex_string bs).length = 2 * bs.length := by
  induction bs with
  | nil => rfl
  | cons b t ih =>
    rw [bytes_to_hex_cons]
    simp [byteToHex, ih]
    omega

theorem hexDigitVal_hexDigitChar {n : Nat} (h : n < 16) :
    hexDigitVal (hexDigitChar n) = some n := by
  interval_cases n <;> rfl

theorem hexDigitChar_ne_plus {n : Nat} (h : n < 16) : hexDigitChar n ≠ '+' := by
  interval_cases n <;> decide

theorem hexPairs_encode {bs : List Nat} (h : ∀ x ∈ bs, x < 256) :
    hexPairs (bytes_to_hex_string bs) = .ok bs := by
  induction bs with
  | nil => rfl
  | cons b t ih =>
    have hb : b < 256 := h b (by simp)
    have hhi : b / 16 < 16 := by omega
    have hlo : b % 16 < 16 := by omega
    have hpair : u8FromStrRadix16Pair (hexDigitChar (b / 16)) (hexDigitChar (b % 16))
        = some b := by
      rw [u8FromStrRadix16Pair, if_neg (hexDigitChar_ne_plus hhi),
        hexDigitVal_hexDigitChar hhi, hexDigitVal_hexDigitChar hlo]
      simp
      omega
    have hcons : bytes_to_hex_string (b :: t)
        = hexDigitChar (b / 16) :: hexDigitChar (b % 16) :: bytes_to_hex_string t := by
      rw [bytes_to_hex_cons]
      simp [byteToHex]
    rw [hcons]
    simp only [hexPairs, hpair, ih (fun x hx => h x (List.mem_cons_of_mem b hx))]
    rfl

theorem hex_decode_encode {bs : List Nat} (h : ∀ x ∈ bs, x < 256) :
    hex_string_to_bytes (bytes_to_hex_string bs) = .ok bs := by
  rw [hex_string_to_bytes, bytes_to_hex_length]
  simp [Nat.mul_mod_right, hexPairs_encode h]

/-! ## Substring search lemmas -/

theorem isPrefixOf_iff_ex {l1 l2 : List Char} :
    l1.isPrefixOf l2 = true ↔ ∃ t, l1 ++ t = l2 := by
  induction l1 generalizing l2 with
  | nil => simp [List.isPrefixOf]
  | cons a t1 ih =>
    cases l2 with
    | nil => simp [List.isPrefixOf]
    | cons b t2 =>
      simp only [List.isPrefixOf, Bool.and_eq_true, beq_iff_eq, ih,
        List.cons_append, List.cons.injEq]
      constructor
      · rintro ⟨rfl, t, rfl⟩
        exact ⟨t, rfl, rfl⟩
      · rintro ⟨t, rfl, rfl⟩
        exact ⟨rfl, t, rfl⟩

theorem strFind_some {hay needle : List Char} {i : Nat}
    (h : strFind hay needle = some i) :
    (∃ t, needle ++ t = hay.drop i) ∧ i ≤ hay.length ∧
      ∀ j < i, ¬ ∃ t, needle ++ t = hay.drop j := by
  induction hay generalizing i with
  | nil =>
    rw [strFind] at h
    by_cases he : needle.isEmpty
    · simp only [he, if_true, Option.some.injEq] at h
      subst h
      rw [List.isEmpty_iff] at he
      subst he
      exact ⟨⟨[], rfl⟩, by simp, by omega⟩
    · simp [he] at h
  | cons c t ih =>
    rw [strFind] at h
    by_cases hp : needle.isPrefixOf (c :: t)
    · rw [if_pos hp] at h
      have h0 : i = 0 := by
        cases h
        rfl
      subst h0
      exact ⟨isPrefixOf_iff_ex.mp hp, by simp, by omega⟩
    · rw [if_neg hp] at h
      cases hfind : strFind t needle with
      | none =>
        rw [hfind] at h
        exact Option.noConfusion h
      | some i2 =>
        rw [hfind] at h
        simp only [Option.map_some'] at h
        have hi : i = i2 + 1 := by
          cases h
          rfl
        subst hi
        obtain ⟨hpre, hle, hmin⟩ := ih hfind
        refine ⟨by simpa using hpre, by simp; omega, ?_⟩
        intro j hj
        cases j with
        | zero =>
          simp only [List.drop_zero]
          intro hex
          exact hp (isPrefixOf_iff_ex.mpr hex)
        | succ j2 =>
          simpa using hmin j2 (by omega)

theorem strFind_none {hay needle : List Char}
    (h : strFind hay needle = none) :
    ∀ j, ¬ ∃ t, needle ++ t = hay.drop j := by
  induction hay with
  | nil =>
    rw [strFind] at h
    by_cases he : needle.isEmpty
    · simp [he] at h
    · intro j hex
      obtain ⟨t, ht⟩ := hex
      rw [List.drop_nil] at ht
      have := List.append_eq_nil.mp ht
      rw [List.isEmpty_iff] at he
      exact he this.1
  | cons c t ih =>
    rw [strFind] at h
    by_cases hp : needle.isPrefixOf (c :: t)
    · rw [if_pos hp] at h
      cases h
    · rw [if_neg hp] at h
      have hfind : strFind t needle = none := by
        cases hfind2 : strFind t needle with
        | none => rfl
        | some i2 =>
          rw [hfind2] at h
          simp at h
      intro j
      cases j with
      | zero =>
        simp only [List.drop_zero]
        intro hex
        exact hp (isPrefixOf_iff_ex.mpr hex)
      | succ j2 => simpa using ih hfind j2

/-! ## Match finder lemmas -/

theorem take_of_ex_append {needle l : List Char} (hex : ∃ t, needle ++ t = l) :
    l.take needle.length = needle := by
  obtain ⟨t, rfl⟩ := hex
  simp

theorem length_le_of_ex_append {needle l : List Char} (hex : ∃ t, needle ++ t = l) :
    needle.length ≤ l.length := by
  obtain ⟨t, rfl⟩ := hex
  simp

/-- If the substring search succeeds, the bounds check, the hex re-decode and
the equality re-check of `find_and_verify_match` all succeed, so it returns
the found index. -/
theorem fvm_some_of_strFind {slice : List Nat} {pi : List Char} {i : Nat}
    (h256 : ∀ x ∈ slice, x < 256)
    (h : strFind pi (bytes_to_hex_string slice) = some i) :
    i + (bytes_to_hex_string slice).length ≤ pi.length ∧
      hex_string_to_bytes ((pi.drop i).take (bytes_to_hex_string slice).length)
        = .ok slice ∧
      find_and_verify_match slice pi = some (i, (bytes_to_hex_string slice).length) := by
  obtain ⟨hpre, hle, _⟩ := strFind_some h
  have hbound : i + (bytes_to_hex_string slice).length ≤ pi.length := by
    have := length_le_of_ex_append hpre
    rw [List.length_drop] at this
    omega
  have hslice : (pi.drop i).take (bytes_to_hex_string slice).length
      = bytes_to_hex_string slice := take_of_ex_append hpre
  have hdec : hex_string_to_bytes ((pi.drop i).take (bytes_to_hex_string slice).length)
      = .ok slice := by
    rw [hslice]
    exact hex_decode_encode h256
  refine ⟨hbound, hdec, ?_⟩
  rw [find_and_verify_match]
  simp only [h, hdec, if_pos hbound]
  simp

/-- Unpacking a successful `find_and_verify_match`: the facts its code path
establishes on the way to `some`. -/
theorem fvm_some_elim {slice : List Nat} {pi : List Char} {i hl : Nat}
    (h : find_and_verify_match slice pi = some (i, hl)) :
    strFind pi (bytes_to_hex_string slice) = some i ∧
      hl = (bytes_to_hex_string slice).length ∧
      i + hl ≤ pi.length ∧
      hex_string_to_bytes ((pi.drop i).take hl) = .ok slice := by
  rw [find_and_verify_match] at h
  cases hfind : strFind pi (bytes_to_hex_string slice) with
  | none =>
    rw [hfind] at h
    exact Option.noConfusion h
  | some i2 =>
    rw [hfind] at h
    simp only at h
    by_cases hbound : i2 + (bytes_to_hex_string slice).length ≤ pi.length
    · rw [if_pos hbound] at h
      cases hdec : hex_string_to_bytes ((pi.drop i2).take (bytes_to_hex_string slice).length) with
      | error e =>
        rw [hdec] at h
        simp only at h
        exact Option.noConfusion h
      | ok decoded =>
        rw [hdec] at h
        simp only at h
        by_cases heq : decoded = slice
        · rw [if_pos heq] at h
          simp only [Option.some.injEq, Prod.mk.injEq] at h
          obtain ⟨rfl, rfl⟩ := h
          subst heq
          exact ⟨rfl, rfl, hbound, hdec⟩
        · rw [if_neg heq] at h
          exact Option.noConfusion h
    · rw [if_neg hbound] at h
      exact Option.noConfusion h

theorem fvm_none_of_strFind_none {slice : List Nat} {pi : List Char}
    (h : strFind pi (bytes_to_hex_string slice) = none) :
    find_and_verify_match slice pi = none := by
  rw [find_and_verify_match]
  simp only [h]

/-! ## Inner loop (`tryLengths`) lemmas -/

theorem tryLengths_some {bytes : List Nat} {pi : List Char} {n i hl l : Nat}
    (h : tryLengths bytes pi n = some (i, hl, l)) :
    1 ≤ l ∧ l ≤ n ∧ find_and_verify_match (bytes.take l) pi = some (i, hl) ∧
      ∀ m, l < m → m ≤ n → find_and_verify_match (bytes.take m) pi = none := by
  induction n with
  | zero => exact Option.noConfusion h
  | succ n ih =>
    rw [tryLengths] at h
    cases hf : find_and_verify_match (bytes.take (n + 1)) pi with
    | some p =>
      rw [hf] at h
      obtain ⟨ia, hla⟩ := p
      simp only [Option.some.injEq, Prod.mk.injEq] at h
      obtain ⟨rfl, rfl, rfl⟩ := h
      exact ⟨by omega, le_refl _, hf, fun m hm1 hm2 => by omega⟩
    | none =>
      rw [hf] at h
      obtain ⟨h1, h2, h3, h4⟩ := ih h
      refine ⟨h1, by omega, h3, ?_⟩
      intro m hm1 hm2
      rcases Nat.lt_or_ge m (n + 1) with hlt | hge
      · exact h4 m hm1 (by omega)
      · have : m = n + 1 := by omega
        subst this
        exact hf

theorem tryLengths_none {bytes : List Nat} {pi : List Char} {n : Nat}
    (h : tryLengths bytes pi n = none) :
    ∀ m, 1 ≤ m → m ≤ n → find_and_verify_match (bytes.take m) pi = none := by
  induction n with
  | zero => omega
  | succ n ih =>
    rw [tryLengths] at h
    cases hf : find_and_verify_match (bytes.take (n + 1)) pi with
    | some p =>
      rw [hf] at h
      exact Option.noConfusion h
    | none =>
      rw [hf] at h
      intro m hm1 hm2
      rcases Nat.lt_or_ge m (n + 1) with hlt | hge
      · exact ih h m hm1 (by omega)
      · have : m = n + 1 := by omega
        subst this
        exact hf

/-! ## Outer loop (`compressGo` / `compress`) structure lemmas -/

theorem compressGo_nil (pi : List Char) (fuel : Nat) : compressGo pi fuel [] = [] := by
  cases fuel <;> rfl

theorem compressGo_succ_cons (pi : List Char) (fuel b : Nat) (rest : List Nat) :
    compressGo pi (fuel + 1) (b :: rest) =
      match tryLengths (b :: rest) pi (rest.length + 1) with
      | some (index, hex_len, len) =>
        .Found index hex_len len :: compressGo pi fuel ((b :: rest).drop len)
      | none => .NotFound [b] :: compressGo pi fuel rest := rfl

/-- Any iteration bound at least as large as the remaining input length gives
the same segment sequence: the loop consumes at least one byte per step. -/
theorem compressGo_fuel_eq (pi : List Char) :
    ∀ fuel1 fuel2 bs, bs.length ≤ fuel1 → bs.length ≤ fuel2 →
      compressGo pi fuel1 bs = compressGo pi fuel2 bs := by
  intro fuel1
  induction fuel1 with
  | zero =>
    intro fuel2 bs h1 h2
    have : bs = [] := by
      cases bs with
      | nil => rfl
      | cons b t => simp at h1
    subst this
    rw [compressGo_nil, compressGo_nil]
  | succ fuel1 ih =>
    intro fuel2 bs h1 h2
    cases bs with
    | nil => rw [compressGo_nil, compressGo_nil]
    | cons b rest =>
      cases fuel2 with
      | zero => simp at h2
      | succ fuel2 =>
        rw [compressGo_succ_cons, compressGo_succ_cons]
        cases htl : tryLengths (b :: rest) pi (rest.length + 1) with
        | none =>
          simp only
          rw [ih fuel2 rest (by simp at h1; omega) (by simp at h2; omega)]
        | some p =>
          obtain ⟨i, hl, l⟩ := p
          obtain ⟨hl1, hl2, _, _⟩ := tryLengths_some htl
          simp only
          rw [ih fuel2 ((b :: rest).drop l)
            (by simp [List.length_drop] at *; omega)
            (by simp [List.length_drop] at *; omega)]

theorem compress_nil (pi : List Char) : compress [] pi = [] := rfl

/-- The one-step unfolding of `compress` on a non-empty input: take the
longest verified match (or a single raw byte) and recurse on the rest. -/
theorem compress_cons (b : Nat) (rest : List Nat) (pi : List Char) :
    compress (b :: rest) pi =
      match tryLengths (b :: rest) pi (rest.length + 1) with
      | some (index, hex_len, len) =>
        .Found index hex_len len :: compress ((b :: rest).drop len) pi
      | none => .NotFound [b] :: compress rest pi := by
  rw [compress]
  simp only [List.length_cons]
  rw [compressGo_succ_cons]
  cases htl : tryLengths (b :: rest) pi (rest.length + 1) with
  | none =>
    simp only
    rw [compress, compressGo_fuel_eq pi rest.length rest.length rest le_rfl le_rfl]
  | some p =>
    obtain ⟨i, hl, l⟩ := p
    obtain ⟨hl1, hl2, _, _⟩ := tryLengths_some htl
    simp only
    rw [compress, compressGo_fuel_eq pi rest.length ((b :: rest).drop l).length
      ((b :: rest).drop l) (by simp [List.length_drop]; omega) le_rfl]

/-! ## Round-trip core -/

/-- Decompressing the byte buffer of a compression always succeeds and gives
back exactly the input bytes. -/
theorem decompressBytes_compress (bs : List Nat) (pi : List Char) :
    decompressBytes (compress bs pi) pi = .ok bs := by
  have key : ∀ n bs, List.length bs ≤ n → decompressBytes (compress bs pi) pi = .ok bs := by
    intro n
    induction n with
    | zero =>
      intro bs hn
      have : bs = [] := by
        cases bs with
        | nil => rfl
        | cons b t => simp at hn
      subst this
      rfl
    | succ n ih =>
      intro bs hn
      cases bs with
      | nil => rfl
      | cons b rest =>
        rw [compress_cons]
        cases htl : tryLengths (b :: rest) pi (rest.length + 1) with
        | none =>
          simp only [decompressBytes]
          rw [ih rest (by simp at hn; omega)]
          rfl
        | some p =>
          obtain ⟨i, hl, l⟩ := p
          obtain ⟨hl1, hl2, hfvm, _⟩ := tryLengths_some htl
          obtain ⟨_, hlen, hbound, hdec⟩ := fvm_some_elim hfvm
          have htk : ((b :: rest).take l).length = l := by
            simp [List.length_take]
            omega
          simp only [decompressBytes]
          rw [if_neg (by omega), hdec]
          simp only
          rw [if_pos htk]
          have hdl : ((b :: rest).drop l).length ≤ n := by
            rw [List.length_drop]
            simp only [List.length_cons]
            simp only [List.length_cons] at hn
            omega
          rw [ih ((b :: rest).drop l) hdl]
          show Except.ok ((b :: rest).take l ++ (b :: rest).drop l) = Except.ok (b :: rest)
          rw [List.take_append_drop]
  exact key bs.length bs le_rfl

/-! ## Per-segment facts about compressor output -/

/-- Every segment `compress` emits is well-formed: a `Found` segment carries
an in-bounds pi reference whose hex length is twice its byte length (and at
least one byte); a `NotFound` segment carries exactly one byte. -/
theorem compress_mem_facts {pi : List Char} :
    ∀ bs : List Nat, ∀ seg ∈ compress bs pi,
      (∀ i hl l, seg = .Found i hl l → i + hl ≤ pi.length ∧ hl = 2 * l ∧ 1 ≤ l) ∧
      (∀ d, seg = .NotFound d → d.length = 1) := by
  have key : ∀ n : Nat, ∀ bs : List Nat, bs.length ≤ n → ∀ seg ∈ compress bs pi,
      (∀ i hl l, seg = .Found i hl l → i + hl ≤ pi.length ∧ hl = 2 * l ∧ 1 ≤ l) ∧
      (∀ d, seg = .NotFound d → d.length = 1) := by
    intro n
    induction n with
    | zero =>
      intro bs hn seg hseg
      have : bs = [] := by
        cases bs with
        | nil => rfl
        | cons b t => simp at hn
      subst this
      simp [compress_nil] at hseg
    | succ n ih =>
      intro bs hn seg hseg
      cases bs with
      | nil => simp [compress_nil] at hseg
      | cons b rest =>
        rw [compress_cons] at hseg
        cases htl : tryLengths (b :: rest) pi (rest.length + 1) with
        | none =>
          rw [htl] at hseg
          simp only [List.mem_cons] at hseg
          rcases hseg with rfl | hseg
          · exact ⟨fun i hl l h => MatchResult.noConfusion h,
              fun d h => by cases h; rfl⟩
          · exact ih rest (by simp at hn; omega) seg hseg
        | some p =>
          obtain ⟨i, hl, l⟩ := p
          rw [htl] at hseg
          obtain ⟨hl1, hl2, hfvm, _⟩ := tryLengths_some htl
          obtain ⟨_, hlen, hbound, _⟩ := fvm_some_elim hfvm
          have htk : ((b :: rest).take l).length = l := by
            simp [List.length_take]
            omega
          simp only [List.mem_cons] at hseg
          rcases hseg with rfl | hseg
          · refine ⟨fun i2 hl2a l2 h => ?_, fun d h => MatchResult.noConfusion h⟩
            cases h
            refine ⟨hbound, ?_, hl1⟩
            rw [hlen, bytes_to_hex_length, htk]
          · have hdl : ((b :: rest).drop l).length ≤ n := by
              rw [List.length_drop]
              simp only [List.length_cons]
              simp only [List.length_cons] at hn
              omega
            exact ih ((b :: rest).drop l) hdl seg hseg
  intro bs
  exact key bs.length bs le_rfl

/-- The byte lengths of the segments of a compression sum to the input
length: the cursor advances from 0 to exactly the input length. -/
theorem compress_segLen_sum (bs : List Nat) (pi : List Char) :
    ((compress bs pi).map segLen).sum = bs.length := by
  have key : ∀ n : Nat, ∀ bs : List Nat, bs.length ≤ n →
      ((compress bs pi).map segLen).sum = bs.length := by
    intro n
    induction n with
    | zero =>
      intro bs hn
      have : bs = [] := by
        cases bs with
        | nil => rfl
        | cons b t => simp at hn
      subst this
      rfl
    | succ n ih =>
      intro bs hn
      cases bs with
      | nil => rfl
      | cons b rest =>
        rw [compress_cons]
        cases htl : tryLengths (b :: rest) pi (rest.length + 1) with
        | none =>
          simp only [List.map_cons, List.sum_cons, segLen]
          rw [ih rest (by simp at hn; omega)]
          simp
          omega
        | some p =>
          obtain ⟨i, hl, l⟩ := p
          obtain ⟨hl1, hl2, _, _⟩ := tryLengths_some htl
          have hdl : ((b :: rest).drop l).length ≤ n := by
            rw [List.length_drop]
            simp only [List.length_cons]
            simp only [List.length_cons] at hn
            omega
          simp only [List.map_cons, List.sum_cons, segLen]
          rw [ih ((b :: rest).drop l) hdl]
          rw [List.length_drop]
          simp only [List.length_cons]
          omega
  exact key bs.length bs le_rfl

/-! ## Claim theorems -/

/-- Claim C1 (round trip): whenever compressing a byte sequence and then
decompressing the resulting segment sequence against the same dictionary
completes without error, the decompressed output is exactly the input. -/
theorem compress_decompress_roundtrip (bs : List Nat) (pi : List Char)
    (out : List Nat) (h : decompress (compress bs pi) pi = .ok out) : out = bs := by
  rw [decompress, decompressBytes_compress bs pi] at h
  simp only at h
  by_cases hv : utf8Valid bs = true
  · rw [if_pos hv] at h
    cases h
    rfl
  · rw [if_neg hv] at h
    exact Except.noConfusion h

/-- Witness for C1 at a concrete input: the hypothesis holds for the byte
sequence of the string consisting of the single character one against the
pi-prefix dictionary. -/
theorem compress_decompress_roundtrip_witness :
    decompress (compress [49] piW) piW = .ok [49] ∧ ([49] : List Nat) = [49] :=
  ⟨by rfl, compress_decompress_roundtrip [49] piW [49] (by rfl)⟩

/-- Claim C10 (empty input): compressing the empty input yields the empty
segment sequence, and decompressing the empty segment sequence succeeds with
the empty output, against any dictionary. -/
theorem compress_decompress_empty (pi : List Char) :
    compress [] pi = [] ∧ decompress [] pi = .ok [] :=
  ⟨rfl, rfl⟩

/-- Claim C7 (well-formed output): every segment sequence `compress` produces
has in-bounds `Found` segments with `hex_len = 2 * original_byte_len`,
single-byte `NotFound` segments, and segment byte lengths summing to the
input length. -/
theorem compress_wellformed (bs : List Nat) (pi : List Char) :
    (∀ seg ∈ compress bs pi,
      (∀ i hl l, seg = .Found i hl l → i + hl ≤ pi.length ∧ hl = 2 * l) ∧
      (∀ d, seg = .NotFound d → d.length = 1)) ∧
    ((compress bs pi).map segLen).sum = bs.length := by
  refine ⟨fun seg hseg => ?_, compress_segLen_sum bs pi⟩
  obtain ⟨hf, hr⟩ := compress_mem_facts bs seg hseg
  exact ⟨fun i hl l h => ⟨(hf i hl l h).1, (hf i hl l h).2.1⟩, hr⟩

/-- Witness for C7: the inner hypotheses are dischargeable at the concrete
compression of the single byte 49 against the pi-prefix dictionary. -/
theorem compress_wellformed_witness :
    (0 + 2 ≤ piW.length ∧ 2 = 2 * 1) ∧
      ((compress [49] piW).map segLen).sum = ([49] : List Nat).length :=
  ⟨((compress_wellformed [49] piW).1 (.Found 0 2 1) (by decide)).1 0 2 1 rfl,
    (compress_wellformed [49] piW).2⟩

/-- Claim C9 (totality and progress): the compressor loop gives the same
segment sequence under any iteration bound at least the input length (each
iteration consumes at least one byte until the cursor reaches the input
length), and every emitted segment stands for at least one byte. -/
theorem compress_total (bs : List Nat) (pi : List Char) :
    (∀ fuel, bs.length ≤ fuel → compressGo pi fuel bs = compress bs pi) ∧
    (∀ seg ∈ compress bs pi, 1 ≤ segLen seg) := by
  constructor
  · intro fuel hfuel
    exact compressGo_fuel_eq pi fuel bs.length bs hfuel le_rfl
  · intro seg hseg
    obtain ⟨hf, hr⟩ := compress_mem_facts bs seg hseg
    cases seg with
    | Found i hl l =>
      have := (hf i hl l rfl).2.2
      simpa [segLen] using this
    | NotFound d =>
      have := hr d rfl
      simp [segLen, this]

/-- Witness for C9: a larger-than-necessary bound gives the same result at a
concrete input, and the emitted segment consumes at least one byte. -/
theorem compress_total_witness :
    compressGo piW 7 [49] = compress [49] piW ∧ 1 ≤ segLen (.Found 0 2 1) :=
  ⟨(compress_total [49] piW).1 7 (by decide),
    (compress_total [49] piW).2 (.Found 0 2 1) (by decide)⟩

/-- Claim C4 (match finder correctness): for byte slices, the finder returns
`some` exactly when the slice's hex key occurs as a contiguous substring of
the dictionary; on success the position is the leftmost occurrence and the
hex length is twice the slice's byte length. -/
theorem find_and_verify_match_correct (slice : List Nat) (pi : List Char)
    (h256 : ∀ x ∈ slice, x < 256) :
    (find_and_verify_match slice pi = none →
      ∀ j, ¬ ∃ t, bytes_to_hex_string slice ++ t = pi.drop j) ∧
    (∀ i hl, find_and_verify_match slice pi = some (i, hl) →
      hl = 2 * slice.length ∧
      (∃ t, bytes_to_hex_string slice ++ t = pi.drop i) ∧
      ∀ j < i, ¬ ∃ t, bytes_to_hex_string slice ++ t = pi.drop j) := by
  constructor
  · intro hnone j
    cases hfind : strFind pi (bytes_to_hex_string slice) with
    | none => exact strFind_none hfind j
    | some i =>
      obtain ⟨_, _, hfvm⟩ := fvm_some_of_strFind h256 hfind
      rw [hfvm] at hnone
      exact Option.noConfusion hnone
  · intro i hl hsome
    obtain ⟨hfind, hlen, _, _⟩ := fvm_some_elim hsome
    obtain ⟨hpre, _, hmin⟩ := strFind_some hfind
    refine ⟨?_, hpre, hmin⟩
    rw [hlen, bytes_to_hex_length]

/-- Witness for C4 at a concrete slice and dictionary. -/
theorem find_and_verify_match_correct_witness :
    (find_and_verify_match [49] piW = none →
      ∀ j, ¬ ∃ t, bytes_to_hex_string [49] ++ t = piW.drop j) ∧
    (∀ i hl, find_and_verify_match [49] piW = some (i, hl) →
      hl = 2 * ([49] : List Nat).length ∧
      (∃ t, bytes_to_hex_string [49] ++ t = piW.drop i) ∧
      ∀ j < i, ¬ ∃ t, bytes_to_hex_string [49] ++ t = piW.drop j) :=
  find_and_verify_match_correct [49] piW (by decide)

/-- Claim C8 (defensive re-check unreachable): whenever the substring search
inside `find_and_verify_match` succeeds on a byte slice's hex key, the bounds
check passes, the matched pi slice decodes back to exactly the original
slice, and the finder returns that match — the treat-as-no-match fallback
after a successful search is never taken. -/
theorem find_verify_recheck_unreachable (slice : List Nat) (pi : List Char)
    (h256 : ∀ x ∈ slice, x < 256) (i : Nat)
    (hfind : strFind pi (bytes_to_hex_string slice) = some i) :
    i + (bytes_to_hex_string slice).length ≤ pi.length ∧
      hex_string_to_bytes ((pi.drop i).take (bytes_to_hex_string slice).length)
        = .ok slice ∧
      find_and_verify_match slice pi = some (i, (bytes_to_hex_string slice).length) :=
  fvm_some_of_strFind h256 hfind

/-- Witness for C8 at a concrete slice and dictionary where the search
succeeds. -/
theorem find_verify_recheck_unreachable_witness :
    0 + (bytes_to_hex_string [49]).length ≤ piW.length ∧
      hex_string_to_bytes ((piW.drop 0).take (bytes_to_hex_string [49]).length)
        = .ok [49] ∧
      find_and_verify_match [49] piW = some (0, (bytes_to_hex_string [49]).length) :=
  find_verify_recheck_unreachable [49] piW (by decide) 0 (by rfl)

/-- Claim C3 (greedy maximality): if `compress` produced a `Found` segment of
byte length `L` at the input offset given by the byte lengths of the
preceding segments, then no strictly longer slice starting at that offset
(and staying inside the input) has a verified match in the dictionary. -/
theorem compress_greedy_maximality :
    ∀ (bs : List Nat) (pi : List Char) (pre post : List MatchResult) (i hl L : Nat),
      compress bs pi = pre ++ .Found i hl L :: post →
      ∀ L2, L < L2 → (pre.map segLen).sum + L2 ≤ bs.length →
        find_and_verify_match ((bs.drop ((pre.map segLen).sum)).take L2) pi = none := by
  have key : ∀ (n : Nat) (bs : List Nat) (pi : List Char)
      (pre post : List MatchResult) (i hl L : Nat), bs.length ≤ n →
      compress bs pi = pre ++ .Found i hl L :: post →
      ∀ L2, L < L2 → (pre.map segLen).sum + L2 ≤ bs.length →
        find_and_verify_match ((bs.drop ((pre.map segLen).sum)).take L2) pi = none := by
    intro n
    induction n with
    | zero =>
      intro bs pi pre post i hl L hn hcomp
      have : bs = [] := by
        cases bs with
        | nil => rfl
        | cons b t => simp at hn
      subst this
      rw [compress_nil] at hcomp
      exact absurd hcomp (by simp)
    | succ n ih =>
      intro bs pi pre post i hl L hn hcomp L2 hL2 hbound
      cases bs with
      | nil =>
        rw [compress_nil] at hcomp
        exact absurd hcomp (by simp)
      | cons b rest =>
        rw [compress_cons] at hcomp
        cases htl : tryLengths (b :: rest) pi (rest.length + 1) with
        | some p =>
          obtain ⟨i0, hl0, l0⟩ := p
          rw [htl] at hcomp
          simp only at hcomp
          obtain ⟨hl1, hlle, hfvm, hmax⟩ := tryLengths_some htl
          cases pre with
          | nil =>
            simp only [List.nil_append] at hcomp
            injection hcomp with hhead htail
            injection hhead with e1 e2 e3
            subst e3
            simp only [List.map_nil, List.sum_nil, List.drop_zero] at *
            exact hmax L2 hL2 (by simpa using hbound)
          | cons p0 pre2 =>
            simp only [List.cons_append] at hcomp
            injection hcomp with hhead htail
            subst hhead
            have hdl : ((b :: rest).drop l0).length ≤ n := by
              rw [List.length_drop]
              simp only [List.length_cons]
              simp only [List.length_cons] at hn
              omega
            have hsum : ((MatchResult.Found i0 hl0 l0 :: pre2).map segLen).sum
                = l0 + (pre2.map segLen).sum := by
              simp [segLen]
            have hb2 : (pre2.map segLen).sum + L2 ≤ ((b :: rest).drop l0).length := by
              rw [hsum] at hbound
              rw [List.length_drop]
              simp only [List.length_cons] at hbound
              simp only [List.length_cons]
              omega
            rw [hsum, ← List.drop_drop]
            exact ih ((b :: rest).drop l0) pi pre2 post i hl L hdl htail L2 hL2 hb2
        | none =>
          rw [htl] at hcomp
          simp only at hcomp
          cases pre with
          | nil =>
            simp only [List.nil_append] at hcomp
            injection hcomp with hhead htail
            exact MatchResult.noConfusion hhead
          | cons p0 pre2 =>
            simp only [List.cons_append] at hcomp
            injection hcomp with hhead htail
            subst hhead
            have hsum : ((MatchResult.NotFound [b] :: pre2).map segLen).sum
                = 1 + (pre2.map segLen).sum := by
              simp [segLen]
            have hb2 : (pre2.map segLen).sum + L2 ≤ rest.length := by
              rw [hsum] at hbound
              simp only [List.length_cons] at hbound
              omega
            rw [hsum, Nat.add_comm 1 ((pre2.map segLen).sum), List.drop_succ_cons]
            exact ih rest pi pre2 post i hl L (by simp at hn; omega) htail L2 hL2 hb2
  intro bs pi pre post i hl L hcomp L2 hL2 hbound
  exact key bs.length bs pi pre post i hl L le_rfl hcomp L2 hL2 hbound

/-- Witness for C3: at input bytes 49, 255 the compressor emits a length-1
match at offset 0, and indeed the length-2 slice has no verified match. -/
theorem compress_greedy_maximality_witness :
    find_and_verify_match ((([49, 255] : List Nat).drop
      ((([] : List MatchResult).map segLen).sum)).take 2) piW = none :=
  compress_greedy_maximality [49, 255] piW [] [.NotFound [255]] 0 2 1
    (by rfl) 2 (by decide) (by decide)

/-! ## Unmatchable bytes (dictionary of decimal digits) -/

theorem mem_key_of_mem {slice : List Nat} {b : Nat} (hb : b ∈ slice)
    {c : Char} (hc : c ∈ byteToHex b) : c ∈ bytes_to_hex_string slice := by
  rw [bytes_to_hex_string, List.mem_flatten]
  exact ⟨byteToHex b, List.mem_map_of_mem byteToHex hb, hc⟩

/-- A byte with a nibble in the range 10..15 puts a letter character into the
hex key, so the key cannot occur in a dictionary of decimal digits and the
match finder rejects every slice containing that byte. -/
theorem fvm_none_of_bad {slice : List Nat} {pi : List Char} {b : Nat}
    (hdict : ∀ c ∈ pi, 48 ≤ c.toNat ∧ c.toNat ≤ 57)
    (hb : b ∈ slice) (hb256 : b < 256)
    (hbad : 10 ≤ b / 16 ∨ 10 ≤ b % 16) :
    find_and_verify_match slice pi = none := by
  obtain ⟨n, hn10, hn16, hmem⟩ : ∃ n, 10 ≤ n ∧ n < 16 ∧ hexDigitChar n ∈ byteToHex b := by
    rcases hbad with h | h
    · exact ⟨b / 16, h, by omega, by simp [byteToHex]⟩
    · exact ⟨b % 16, h, by omega, by simp [byteToHex]⟩
  have hletter : 97 ≤ (hexDigitChar n).toNat ∧ (hexDigitChar n).toNat ≤ 102 := by
    interval_cases n <;> exact ⟨by decide, by decide⟩
  have hkey : hexDigitChar n ∈ bytes_to_hex_string slice := mem_key_of_mem hb hmem
  cases hfind : strFind pi (bytes_to_hex_string slice) with
  | none => exact fvm_none_of_strFind_none hfind
  | some i =>
    obtain ⟨⟨t, ht⟩, _, _⟩ := strFind_some hfind
    have hcpi : hexDigitChar n ∈ pi := by
      have hdropmem : hexDigitChar n ∈ pi.drop i := by
        rw [← ht]
        exact List.mem_append_left _ hkey
      exact List.mem_of_mem_drop hdropmem
    have := hdict _ hcpi
    omega

/-- The compressor covers a position holding an unmatchable byte with a
single-byte `NotFound` segment located exactly at that position. -/
theorem compress_bad_byte_raw_aux {pi : List Char}
    (hdict : ∀ c ∈ pi, 48 ≤ c.toNat ∧ c.toNat ≤ 57) :
    ∀ (n : Nat) (bs : List Nat) (p b : Nat), bs.length ≤ n →
      (∀ x ∈ bs, x < 256) → bs.get? p = some b →
      (10 ≤ b / 16 ∨ 10 ≤ b % 16) →
      ∃ pre post, compress bs pi = pre ++ .NotFound [b] :: post ∧
        (pre.map segLen).sum = p := by
  intro n
  induction n with
  | zero =>
    intro bs p b hn h256 hget hbad
    have : bs = [] := by
      cases bs with
      | nil => rfl
      | cons x t => simp at hn
    subst this
    simp at hget
  | succ n ih =>
    intro bs p b hn h256 hget hbad
    cases bs with
    | nil => simp at hget
    | cons b0 rest =>
      rw [compress_cons]
      cases htl : tryLengths (b0 :: rest) pi (rest.length + 1) with
      | some pr =>
        obtain ⟨i0, hl0, l0⟩ := pr
        obtain ⟨hl1, hlle, hfvm, _⟩ := tryLengths_some htl
        by_cases hp : p < l0
        · exfalso
          have hmem : b ∈ (b0 :: rest).take l0 := by
            have hgt : ((b0 :: rest).take l0).get? p = some b := by
              rw [List.get?_take hp]
              exact hget
            exact List.get?_mem hgt
          have hb256 : b < 256 := h256 b (List.get?_mem hget)
          rw [fvm_none_of_bad hdict hmem hb256 hbad] at hfvm
          exact Option.noConfusion hfvm
        · push_neg at hp
          have hdl : ((b0 :: rest).drop l0).length ≤ n := by
            rw [List.length_drop]
            simp only [List.length_cons]
            simp only [List.length_cons] at hn
            omega
          have hget2 : ((b0 :: rest).drop l0).get? (p - l0) = some b := by
            rw [List.get?_drop]
            have harith : l0 + (p - l0) = p := by omega
            rw [harith]
            exact hget
          obtain ⟨pre, post, hcomp, hsum⟩ := ih ((b0 :: rest).drop l0) (p - l0) b hdl
            (fun x hx => h256 x (List.mem_of_mem_drop hx)) hget2 hbad
          refine ⟨.Found i0 hl0 l0 :: pre, post, ?_, ?_⟩
          · simp only
            rw [hcomp]
            rfl
          · simp only [List.map_cons, List.sum_cons, segLen, hsum]
            omega
      | none =>
        cases p with
        | zero =>
          have hb : b = b0 := by
            simp at hget
            omega
          subst hb
          exact ⟨[], compress rest pi, by simp, by simp⟩
        | succ p2 =>
          obtain ⟨pre, post, hcomp, hsum⟩ := ih rest p2 b (by simp at hn; omega)
            (fun x hx => h256 x (by simp [hx])) (by simpa using hget) hbad
          refine ⟨.NotFound [b0] :: pre, post, ?_, ?_⟩
          · simp only
            rw [hcomp]
            rfl
          · simp only [List.map_cons, List.sum_cons, segLen, hsum]
            simp
            omega

/-- Claim C6 (unmatchable bytes): against a dictionary of decimal digits, a
byte with a hex nibble in the range a-f defeats every candidate slice that
contains it; the compressor therefore emits that byte as a single-byte raw
segment at exactly its input position, and decompression reproduces the
whole input, that byte included, unchanged. -/
theorem compress_unmatchable_byte (bs : List Nat) (pi : List Char) (p b : Nat)
    (hdict : ∀ c ∈ pi, 48 ≤ c.toNat ∧ c.toNat ≤ 57)
    (h256 : ∀ x ∈ bs, x < 256)
    (hget : bs.get? p = some b)
    (hbad : 10 ≤ b / 16 ∨ 10 ≤ b % 16) :
    (∀ slice, b ∈ slice → find_and_verify_match slice pi = none) ∧
    (∃ pre post, compress bs pi = pre ++ .NotFound [b] :: post ∧
      (pre.map segLen).sum = p) ∧
    decompressBytes (compress bs pi) pi = .ok bs := by
  have hb256 : b < 256 := h256 b (List.get?_mem hget)
  exact ⟨fun slice hs => fvm_none_of_bad hdict hs hb256 hbad,
    compress_bad_byte_raw_aux hdict bs.length bs p b le_rfl h256 hget hbad,
    decompressBytes_compress bs pi⟩

/-- Witness for C6 at the concrete byte 255 against the pi-prefix
dictionary. -/
theorem compress_unmatchable_byte_witness :
    (∀ slice, 255 ∈ slice → find_and_verify_match slice piW = none) ∧
    (∃ pre post, compress [255] piW = pre ++ .NotFound [255] :: post ∧
      (pre.map segLen).sum = 0) ∧
    decompressBytes (compress [255] piW) piW = .ok [255] :=
  compress_unmatchable_byte [255] piW 0 255 (by decide) (by decide)
    (by rfl) (by decide)

/-! ## Decompressor error taxonomy -/

/-- The byte-rebuilding loop only ever fails with the bounds error, a hex
conversion error, or the length mismatch error. -/
theorem decompressBytes_error_kinds {segs : List MatchResult} {pi : List Char}
    {e : DecompressError} (h : decompressBytes segs pi = .error e) :
    e = .outOfBounds ∨ e = .lengthMismatch ∨ ∃ he, e = .conversion he := by
  induction segs generalizing e with
  | nil => exact Except.noConfusion h
  | cons seg rest ih =>
    cases seg with
    | Found i hl l =>
      simp only [decompressBytes] at h
      by_cases hb : i + hl > pi.length
      · rw [if_pos hb] at h
        injection h with h2
        exact Or.inl h2.symm
      · rw [if_neg hb] at h
        cases hdec : hex_string_to_bytes ((pi.drop i).take hl) with
        | error he2 =>
          rw [hdec] at h
          simp only at h
          injection h with h2
          exact Or.inr (Or.inr ⟨he2, h2.symm⟩)
        | ok bytes =>
          rw [hdec] at h
          simp only at h
          by_cases hlen : bytes.length = l
          · rw [if_pos hlen] at h
            cases hrest : decompressBytes rest pi with
            | ok out =>
              rw [hrest] at h
              simp only [Except.map] at h
              exact Except.noConfusion h
            | error e2 =>
              rw [hrest] at h
              simp only [Except.map] at h
              injection h with h2
              rw [← h2]
              exact ih hrest
          · rw [if_neg hlen] at h
            injection h with h2
            exact Or.inr (Or.inl h2.symm)
    | NotFound d =>
      simp only [decompressBytes] at h
      cases hrest : decompressBytes rest pi with
      | ok out =>
        rw [hrest] at h
        simp only [Except.map] at h
        exact Except.noConfusion h
      | error e2 =>
        rw [hrest] at h
        simp only [Except.map] at h
        injection h with h2
        rw [← h2]
        exact ih hrest

/-- Claim C2 (amended): `decompress` either returns the reconstructed byte
buffer (when it is valid UTF-8), or fails with the UTF-8 encoding error on
that buffer, or propagates exactly one of the bounds, hex conversion, or
length mismatch errors from the rebuilding loop.  The UTF-8 validation is
performed inside `decompress` itself, as its final step. -/
theorem decompress_error_cases (segs : List MatchResult) (pi : List Char) :
    (∃ bs, decompress segs pi = .ok bs ∧ decompressBytes segs pi = .ok bs ∧
      utf8Valid bs = true) ∨
    (∃ bs, decompress segs pi = .error .notUtf8 ∧
      decompressBytes segs pi = .ok bs ∧ utf8Valid bs = false) ∨
    (∃ e, decompress segs pi = .error e ∧ decompressBytes segs pi = .error e ∧
      (e = .outOfBounds ∨ e = .lengthMismatch ∨ ∃ he, e = .conversion he)) := by
  cases h : decompressBytes segs pi with
  | ok bs =>
    by_cases hv : utf8Valid bs = true
    · exact Or.inl ⟨bs, by simp only [decompress, h]; rw [if_pos hv], rfl, hv⟩
    · have hv2 : utf8Valid bs = false := by
        cases hval : utf8Valid bs with
        | true => exact absurd hval hv
        | false => rfl
      exact Or.inr (Or.inl ⟨bs, by simp only [decompress, h]; rw [if_neg hv], rfl, hv2⟩)
  | error e =>
    exact Or.inr (Or.inr ⟨e, by simp only [decompress, h], rfl,
      decompressBytes_error_kinds h⟩)

/-- Counterexample to C2 as stated: a raw segment holding the byte 255
rebuilds the buffer with bytes 255 successfully, yet `decompress` neither
returns that buffer nor fails with one of the three stated errors — it fails
with the UTF-8 encoding error, inside `decompress` itself. -/
theorem decompress_utf8_counterexample :
    decompressBytes [MatchResult.NotFound [255]] [] = .ok [255] ∧
    decompress [MatchResult.NotFound [255]] [] = .error .notUtf8 ∧
    DecompressError.notUtf8 ≠ .outOfBounds ∧
    DecompressError.notUtf8 ≠ .lengthMismatch ∧
    ∀ he, DecompressError.notUtf8 ≠ .conversion he := by
  refine ⟨by rfl, by rfl, by simp, by simp, fun he => by simp⟩

/-! ## Hex decoder trichotomy -/

/-- Two-at-a-time induction on character lists. -/
theorem list_char_pair_induction {motive : List Char → Prop} (h0 : motive [])
    (h1 : ∀ c, motive [c])
    (h2 : ∀ c0 c1 t, motive t → motive (c0 :: c1 :: t)) :
    ∀ s, motive s := by
  have key : ∀ n s, List.length s ≤ n → motive s := by
    intro n
    induction n with
    | zero =>
      intro s hs
      cases s with
      | nil => exact h0
      | cons a t => simp at hs
    | succ n ih =>
      intro s hs
      cases s with
      | nil => exact h0
      | cons c0 t0 =>
        cases t0 with
        | nil => exact h1 c0
        | cons c1 t => exact h2 c0 c1 t (ih t (by simp at hs; omega))
  intro s
  exact key s.length s le_rfl

theorem hexPairs_cases :
    ∀ s : List Char, s.length % 2 = 0 →
      (if ((pairChunks s).all fun pr => (u8FromStrRadix16Pair pr.1 pr.2).isSome) = true
       then hexPairs s
          = .ok ((pairChunks s).map fun pr => (u8FromStrRadix16Pair pr.1 pr.2).getD 0)
       else hexPairs s = .error .invalidDigit) := by
  intro s
  induction s using list_char_pair_induction with
  | h0 =>
    intro _
    simp [pairChunks, hexPairs]
  | h1 c =>
    intro hlen
    simp at hlen
  | h2 c0 c1 t ih =>
    intro hlen
    have ht : t.length % 2 = 0 := by
      simp only [List.length_cons] at hlen
      omega
    have hchunks : pairChunks (c0 :: c1 :: t) = (c0, c1) :: pairChunks t := rfl
    cases hp : u8FromStrRadix16Pair c0 c1 with
    | none =>
      rw [if_neg]
      · simp only [hexPairs, hp]
      · rw [hchunks]
        simp [hp]
    | some v =>
      have hall : ((pairChunks (c0 :: c1 :: t)).all
          fun pr => (u8FromStrRadix16Pair pr.1 pr.2).isSome)
          = ((pairChunks t).all fun pr => (u8FromStrRadix16Pair pr.1 pr.2).isSome) := by
        rw [hchunks]
        simp [hp]
      by_cases hallt : ((pairChunks t).all
          fun pr => (u8FromStrRadix16Pair pr.1 pr.2).isSome) = true
      · rw [if_pos (by rw [hall]; exact hallt)]
        have iht := ih ht
        rw [if_pos hallt] at iht
        simp only [hexPairs, hp, iht]
        rw [hchunks]
        simp only [List.map_cons]
        simp [hp]
        rfl
      · rw [if_neg (by rw [hall]; exact hallt)]
        have iht := ih ht
        rw [if_neg hallt] at iht
        simp only [hexPairs, hp, iht]
        rfl

/-- Claim C5 (amended): `hex_string_to_bytes` fails with the odd-length error
exactly on odd-length input; on even-length input it decodes each consecutive
character pair through `from_str_radix` (which also accepts a pair whose
first character is a leading plus sign) and returns the byte list when every
pair parses, failing with the invalid digit error otherwise.  These three
outcomes are exhaustive and the function is pure. -/
theorem hex_string_to_bytes_cases (s : List Char) :
    if s.length % 2 = 1 then hex_string_to_bytes s = .error .oddLength
    else if ((pairChunks s).all fun pr => (u8FromStrRadix16Pair pr.1 pr.2).isSome) = true
    then hex_string_to_bytes s
        = .ok ((pairChunks s).map fun pr => (u8FromStrRadix16Pair pr.1 pr.2).getD 0)
    else hex_string_to_bytes s = .error .invalidDigit := by
  by_cases hodd : s.length % 2 = 1
  · rw [if_pos hodd]
    simp only [hex_string_to_bytes]
    rw [if_pos (by omega)]
  · rw [if_neg hodd]
    have heven : s.length % 2 = 0 := by omega
    have hcases := hexPairs_cases s heven
    have hunfold : hex_string_to_bytes s = hexPairs s := by
      simp only [hex_string_to_bytes]
      rw [if_neg (by omega)]
    rw [← hunfold] at hcases
    exact hcases

/-- Counterexample to C5 as stated: the even-length input plus-five contains
the character plus, which is not a valid hex digit, yet `hex_string_to_bytes`
succeeds (Rust `from_str_radix` accepts a leading plus sign) instead of
failing with the invalid digit error. -/
theorem hexToBytes_plus_counterexample :
    hex_string_to_bytes ['+', '5'] = .ok [5] ∧
    (['+', '5'] : List Char).length % 2 = 0 ∧
    hexDigitVal '+' = none := by
  exact ⟨by rfl, by rfl, by rfl⟩
